import Mathlib

/- Verification of the omega_h distributed adaptive-mesh core: shallow embedding
   of the Array handle, the Dist sparse-exchange pattern, adjacency derivation,
   ghost synchronization, the hypercube split-degree table and the AMR refine
   driver, together with proofs of the specified properties. -/

namespace OmegaH

/- Machine-integer helpers.  I8 is int8_t; a cast of a nonnegative machine
   integer to I8 wraps two's-complement into [-128, 127].  Arithmetic right
   shift of a two's-complement value by k is floor division by 2^k, and
   bitwise AND with 2^k - 1 is the Euclidean remainder modulo 2^k. -/
def i8_of_nat (n : Nat) : Int :=
  Int.emod (Int.ofNat n + 128) 256 - 128

namespace amr

/- Translated from Omega_h_amr.hpp (included by src/src/amr_mpi_test.cpp):
   make_code(which_child, parent_dim) = I8((which_child << 2) | parent_dim). -/
def make_code (which_child parent_dim : Nat) : Int :=
  i8_of_nat ((which_child <<< 2) ||| parent_dim)

/- code_which_child(code) = code >> 2 (arithmetic shift of I8). -/
def code_which_child (code : Int) : Int :=
  Int.fdiv code 4

/- code_parent_dim(code) = code & 3. -/
def code_parent_dim (code : Int) : Int :=
  Int.emod code 4

end amr

/- Translated from src/unnamed/part_000 lines 544-548 (omega_h.hpp):
   code_is_flipped(code) = code & 1 (as bool),
   code_rotation(code) = (code >> 1) & 3,
   code_which_down(code) = code >> 3, all on I8 codes. -/
def code_is_flipped (code : Int) : Bool :=
  decide (Int.emod code 2 = 1)

def code_rotation (code : Int) : Int :=
  Int.emod (Int.fdiv code 2) 4

def code_which_down (code : Int) : Int :=
  Int.fdiv code 8

/- Auxiliary bounded form of the orientation-code decomposition, stated over
   the natural numbers 0..127 so that it can be checked by evaluation. -/
theorem code_fields_aux : ∀ n : Nat, n < 128 →
    n = ((code_which_down (Int.ofNat n)).toNat <<< 3) |||
        ((code_rotation (Int.ofNat n)).toNat <<< 1) |||
        (if code_is_flipped (Int.ofNat n) then 1 else 0) ∧
    code_is_flipped (Int.ofNat n) = decide (Int.emod (Int.ofNat n) 2 = 1) ∧
    0 ≤ code_rotation (Int.ofNat n) ∧ code_rotation (Int.ofNat n) ≤ 3 ∧
    code_which_down (Int.ofNat n) = Int.fdiv (Int.ofNat n) 8 := by decide

/-- C4: for every which_child in [0, 31] and parent_dim in [0, 3], the
parent-code packing round-trips exactly:
code_which_child(make_code(which_child, parent_dim)) = which_child and
code_parent_dim(make_code(which_child, parent_dim)) = parent_dim. -/
theorem make_code_round_trip : ∀ wc : Nat, wc ≤ 31 → ∀ pd : Nat, pd ≤ 3 →
    amr.code_which_child (amr.make_code wc pd) = Int.ofNat wc ∧
    amr.code_parent_dim (amr.make_code wc pd) = Int.ofNat pd := by decide

/-- Witness for C4 at which_child = 5, parent_dim = 2. -/
theorem make_code_round_trip_witness :
    amr.code_which_child (amr.make_code 5 2) = Int.ofNat 5 ∧
    amr.code_parent_dim (amr.make_code 5 2) = Int.ofNat 2 :=
  make_code_round_trip 5 (by decide) 2 (by decide)

/-- C10: for every I8 code with 0 ≤ code ≤ 127, the orientation-code accessors
decompose the code into three disjoint bit fields that reconstruct it:
code = (code_which_down(code) << 3) | (code_rotation(code) << 1) | (flipped bit),
code_is_flipped(code) is the low bit, code_rotation(code) lies in [0, 3], and
code_which_down(code) = code >> 3. -/
theorem code_fields_decompose (code : Int) (h0 : 0 ≤ code) (h1 : code ≤ 127) :
    code.toNat = ((code_which_down code).toNat <<< 3) |||
        ((code_rotation code).toNat <<< 1) |||
        (if code_is_flipped code then 1 else 0) ∧
    code_is_flipped code = decide (Int.emod code 2 = 1) ∧
    0 ≤ code_rotation code ∧ code_rotation code ≤ 3 ∧
    code_which_down code = Int.fdiv code 8 := by
  obtain ⟨n, rfl⟩ : ∃ n : Nat, code = Int.ofNat n :=
    ⟨code.toNat, (Int.toNat_of_nonneg h0).symm⟩
  have hn : n < 128 := by
    rw [Int.ofNat_eq_natCast] at h1
    omega
  have h := code_fields_aux n hn
  refine ⟨?_, h.2.1, h.2.2.1, h.2.2.2.1, h.2.2.2.2⟩
  have ht : (Int.ofNat n).toNat = n := rfl
  rw [ht]
  exact h.1

/-- Witness for C10 at code = 93 = (11 << 3) | (2 << 1) | 1. -/
theorem code_fields_decompose_witness :
    (93 : Int).toNat = ((code_which_down 93).toNat <<< 3) |||
        ((code_rotation 93).toNat <<< 1) |||
        (if code_is_flipped 93 then 1 else 0) ∧
    code_is_flipped 93 = decide (Int.emod 93 2 = 1) ∧
    0 ≤ code_rotation 93 ∧ code_rotation 93 ≤ 3 ∧
    code_which_down 93 = Int.fdiv 93 8 :=
  code_fields_decompose 93 (by decide) (by decide)

/- Modelled from the spec: the Dist sparse-exchange pattern.  Class Dist is
   only declared in src/unnamed/part_000 (lines 292-333); its member-function
   bodies are not under src/.  Per the spec, a Distribution holds a forward and
   a reverse direction, each carrying a root count and a per-item destination
   map; the model collapses the communicator to a single rank, so a destination
   is just a root index. -/
structure DistDir where
  nroots : Nat
  items2dests : List Nat

structure Dist where
  fwd : DistDir
  rev : DistDir

/- Index of the first item whose destination is a given root; returns the list
   length when no item targets that root. -/
def findSrc : List Nat → Nat → Nat
  | [], _ => 0
  | a :: l, r => if a = r then 0 else findSrc l r + 1

/- Modelled from the spec: invert() swaps the forward and reverse roles. -/
def Dist.invert (d : Dist) : Dist := ⟨d.rev, d.fwd⟩

def Dist.nitems (d : Dist) : Nat := d.fwd.items2dests.length

def Dist.nroots (d : Dist) : Nat := d.fwd.nroots

/- Modelled from the spec: exch(data, width) sends each item's width-wide slice
   of data to its destination root index; the result is indexed by roots.  A
   root targeted by no item reads as zero. -/
def Dist.exch (d : Dist) (data : List Int) (w : Nat) : List Int :=
  (List.range (d.fwd.nroots * w)).map fun k =>
    data.getD (findSrc d.fwd.items2dests (k / w) * w + k % w) 0

/- Modelled from the spec: Dist construction from Remotes (destination root
   index per item, plus the root count); the reverse direction is derived by
   inverting the forward map. -/
def distFromRemotes (items2root_idxs : List Nat) (nroots : Nat) : Dist :=
  ⟨⟨nroots, items2root_idxs⟩,
   ⟨items2root_idxs.length, (List.range nroots).map fun r => findSrc items2root_idxs r⟩⟩

/-- C1: for every Distribution d, data array of matching size and width w ≥ 1,
exchanging through the doubly-inverted distribution equals exchanging through
the original: exch(d.invert().invert(), data, w) = exch(d, data, w). -/
theorem invert_involution_exch (d : Dist) (data : List Int) (w : Nat)
    (_hw : 1 ≤ w) (_hdata : data.length = d.nitems * w) :
    (d.invert.invert).exch data w = d.exch data w := by
  cases d
  rfl

/-- Witness for C1 at the two-item swap distribution, data = [5, 7], w = 1. -/
theorem invert_involution_exch_witness :
    1 ≤ 1 ∧ ([5, 7] : List Int).length = (distFromRemotes [1, 0] 2).nitems * 1 ∧
    ((distFromRemotes [1, 0] 2).invert.invert).exch [5, 7] 1 =
      (distFromRemotes [1, 0] 2).exch [5, 7] 1 :=
  ⟨by decide, by decide,
   invert_involution_exch (distFromRemotes [1, 0] 2) [5, 7] 1 (by decide) (by decide)⟩

theorem findSrc_map_succ (l : List Nat) (r : Nat) :
    findSrc (l.map Nat.succ) (r + 1) = findSrc l r := by
  induction l with
  | nil => rfl
  | cons a l ih =>
    simp only [List.map_cons, findSrc]
    by_cases h : a = r
    · simp [h]
    · have h2 : ¬ (Nat.succ a = r + 1) := by omega
      simp [h, h2, ih]

theorem findSrc_range (n : Nat) : ∀ r : Nat, r < n → findSrc (List.range n) r = r := by
  induction n with
  | zero => intro r h; omega
  | succ n ih =>
    intro r h
    rw [List.range_succ_eq_map]
    cases r with
    | zero => rfl
    | succ r' =>
      have hstep : findSrc (0 :: (List.range n).map Nat.succ) (r' + 1)
          = findSrc ((List.range n).map Nat.succ) (r' + 1) + 1 := by
        simp [findSrc]
      rw [hstep, findSrc_map_succ, ih r' (by omega)]

/-- C5: for a Distribution built from the identity mapping over n items (item i
sent to root i, with n roots), and any data array of size n*w with w ≥ 1,
exch(data, w) = data. -/
theorem exch_identity (n w : Nat) (data : List Int) (_hw : 1 ≤ w)
    (hdata : data.length = n * w) :
    (distFromRemotes (List.range n) n).exch data w = data := by
  apply List.ext_getElem
  · simp [Dist.exch, distFromRemotes, hdata]
  · intro i h1 h2
    simp only [Dist.exch, distFromRemotes, List.getElem_map, List.getElem_range]
    have hin : i < n * w := by
      simpa [Dist.exch, distFromRemotes] using h1
    have hiw : i / w < n := Nat.div_lt_of_lt_mul (Nat.mul_comm n w ▸ hin)
    rw [findSrc_range n (i / w) hiw]
    have hk : i / w * w + i % w = i := by
      rw [Nat.mul_comm (i / w) w]
      exact Nat.div_add_mod i w
    rw [hk]
    exact List.getD_eq_getElem data 0 h2

/-- Witness for C5 at n = 2, w = 2, data = [3, 1, 4, 1]. -/
theorem exch_identity_witness :
    1 ≤ 2 ∧ ([3, 1, 4, 1] : List Int).length = 2 * 2 ∧
    (distFromRemotes (List.range 2) 2).exch [3, 1, 4, 1] 2 = [3, 1, 4, 1] :=
  ⟨by decide, by decide, exch_identity 2 2 [3, 1, 4, 1] (by decide) (by decide)⟩

/- Element lookup with default in a mapped range, used throughout. -/
theorem getD_map_range {α : Type} (n : Nat) (f : Nat → α) (d : α) (i : Nat)
    (h : i < n) : ((List.range n).map f).getD i d = f i := by
  rw [List.getD_eq_getElem _ d (by simpa using h)]
  simp

/- Modelled from the spec: adjacency storage and derivation (Mesh::ask_up and
   Mesh::ask_down are only declared in src/unnamed/part_000 lines 411-413; the
   derivation code is not under src/).  A down-adjacency is a fixed-arity
   cell-to-vertex list ev2v of length ncells * arity; cellVerts reads cell c's
   vertex list from it. -/
def cellVerts (arity : Nat) (ev2v : List Nat) (c : Nat) : List Nat :=
  (ev2v.drop (c * arity)).take arity

/- Modelled from the spec: deriving the up-adjacency by inverting a
   down-adjacency; vertex v's target list holds every cell whose vertex list
   contains v. -/
def derive_up (nverts ncells arity : Nat) (ev2v : List Nat) : List (List Nat) :=
  (List.range nverts).map fun v =>
    (List.range ncells).filter fun c => decide (v ∈ cellVerts arity ev2v c)

/- Modelled from the spec: re-deriving a down-adjacency from an up-adjacency by
   the same inversion. -/
def rederive_down (ncells : Nat) (up : List (List Nat)) : List (List Nat) :=
  (List.range ncells).map fun c =>
    (List.range up.length).filter fun v => decide (c ∈ up.getD v [])

/-- C6: for every valid down-adjacency (entry bounds respected, fixed arity),
inverting it to an up-adjacency and re-deriving a down-adjacency reproduces the
original per source entity, as set-equality of target lists: a vertex is a
target of cell c in the re-derived down-adjacency iff it is a target of c in
the original. -/
theorem adjacency_round_trip (nverts ncells arity : Nat) (ev2v : List Nat)
    (_hlen : ev2v.length = ncells * arity)
    (hval : ∀ x ∈ ev2v, x < nverts)
    (c : Nat) (hc : c < ncells) (v : Nat) :
    (v ∈ (rederive_down ncells (derive_up nverts ncells arity ev2v)).getD c [] ↔
     v ∈ cellVerts arity ev2v c) := by
  have hup_len : (derive_up nverts ncells arity ev2v).length = nverts := by
    simp [derive_up]
  rw [rederive_down, getD_map_range ncells _ [] c hc, hup_len]
  rw [List.mem_filter, List.mem_range]
  constructor
  · rintro ⟨hv1, hv2⟩
    rw [decide_eq_true_eq, derive_up, getD_map_range nverts _ [] v hv1,
        List.mem_filter, decide_eq_true_eq] at hv2
    exact hv2.2
  · intro hv
    have hvn : v < nverts :=
      hval v (List.drop_subset (c * arity) ev2v (List.take_subset arity _ hv))
    refine ⟨hvn, ?_⟩
    rw [decide_eq_true_eq, derive_up, getD_map_range nverts _ [] v hvn,
        List.mem_filter, decide_eq_true_eq]
    exact ⟨List.mem_range.mpr hc, hv⟩

/-- Witness for C6 on the two-cell, arity-2 down-adjacency [0, 1, 1, 2] over
three vertices, at cell 0 and vertex 1. -/
theorem adjacency_round_trip_witness :
    (1 ∈ (rederive_down 2 (derive_up 3 2 2 [0, 1, 1, 2])).getD 0 [] ↔
     1 ∈ cellVerts 2 [0, 1, 1, 2] 0) :=
  adjacency_round_trip 3 2 2 [0, 1, 1, 2] (by decide) (by decide) 0 (by decide) 1

/- Modelled from the spec: ghost synchronization (Mesh::sync_array is only
   declared in src/unnamed/part_000 lines 463-464; its body is not under src/).
   One ghosted mesh dimension is modelled by an owner map: owner e is the local
   index of the entity holding the authoritative copy of entity e, and an
   entity is owned iff it is its own owner.  sync_array overwrites every
   entity's width-wide slice with its owner's slice, so owners push values to
   ghosts and ghosts never originate data. -/
structure GhostDim where
  nents : Nat
  owner : List Nat

def sync_array (m : GhostDim) (a : List Int) (w : Nat) : List Int :=
  (List.range (m.nents * w)).map fun k =>
    a.getD (m.owner.getD (k / w) 0 * w + k % w) 0

/- Width-w slice of entity e in a flat per-entity array. -/
def slice (l : List Int) (e w : Nat) : List Int :=
  (l.drop (e * w)).take w

/-- C7: after sync_array on a ghosted dimension, each entity's w-wide slice
equals the slice its owner held in the input (ghosts are overwritten by their
owners exactly), and each owned entity's slice equals its input value. -/
theorem sync_array_ghost_consistency (m : GhostDim) (a : List Int) (w : Nat)
    (hw : 1 ≤ w) (hown_len : m.owner.length = m.nents)
    (hown : ∀ o ∈ m.owner, o < m.nents)
    (ha : a.length = m.nents * w)
    (e : Nat) (he : e < m.nents) :
    slice (sync_array m a w) e w = slice a (m.owner.getD e 0) w ∧
    (m.owner.getD e 0 = e → slice (sync_array m a w) e w = slice a e w) := by
  have howner_e : m.owner.getD e 0 < m.nents := by
    apply hown
    have hel : e < m.owner.length := by omega
    rw [List.getD_eq_getElem _ 0 hel]
    exact List.getElem_mem hel
  have hle : e * w + w ≤ m.nents * w := by
    have h := Nat.mul_le_mul_right w (Nat.succ_le_of_lt he)
    rw [Nat.succ_mul] at h
    exact h
  have hle2 : m.owner.getD e 0 * w + w ≤ m.nents * w := by
    have h := Nat.mul_le_mul_right w (Nat.succ_le_of_lt howner_e)
    rw [Nat.succ_mul] at h
    exact h
  have hmain : slice (sync_array m a w) e w = slice a (m.owner.getD e 0) w := by
    apply List.ext_getElem
    · simp only [slice, sync_array, List.length_take, List.length_drop,
        List.length_map, List.length_range, ha]
      omega
    · intro j hj1 hj2
      have hjw : j < w := by
        simp only [slice, List.length_take, List.length_drop] at hj1
        omega
      simp only [slice, List.getElem_take, List.getElem_drop, sync_array,
        List.getElem_map, List.getElem_range]
      have hdiv : (e * w + j) / w = e := by
        rw [Nat.add_comm (e * w) j, Nat.add_mul_div_right j e (by omega),
          Nat.div_eq_of_lt hjw]
        omega
      have hmod : (e * w + j) % w = j := by
        rw [Nat.add_comm (e * w) j, Nat.add_mul_mod_self_right,
          Nat.mod_eq_of_lt hjw]
      rw [hdiv, hmod]
      have hidx : m.owner.getD e 0 * w + j < a.length := by
        rw [ha]; omega
      rw [List.getD_eq_getElem _ 0 hidx]
  exact ⟨hmain, fun h => by rw [hmain, h]⟩

/-- Witness for C7: two entities, entity 1 a ghost owned by entity 0,
a = [4, 9], w = 1, checked at entity 1 (the ghost) via the theorem. -/
theorem sync_array_ghost_consistency_witness :
    slice (sync_array ⟨2, [0, 0]⟩ [4, 9] 1) 1 1 = slice [4, 9] (([0, 0] : List Nat).getD 1 0) 1 ∧
    (([0, 0] : List Nat).getD 1 0 = 1 → slice (sync_array ⟨2, [0, 0]⟩ [4, 9] 1) 1 1 = slice [4, 9] 1 1) :=
  sync_array_ghost_consistency ⟨2, [0, 0]⟩ [4, 9] 1 (by decide) (by decide)
    (by decide) (by decide) 1 (by decide)

/- Modelled from the spec: the hypercube split-degree table
   (Omega_h_hypercube.hpp is not under src/; src/unnamed/part_001 line 89
   asserts hypercube_split_degree(mod_dim, VERT) == 1 for every modified
   dimension).  Entry (mod_dim, prod_dim) is the number of interior product
   entities of dimension prod_dim created when an entity of dimension mod_dim
   is refined: an edge produces 1 midpoint vertex and 2 sub-edges; a quad
   produces 1 midpoint vertex, 4 interior edges and 4 sub-quads; a hex produces
   1 center vertex, 6 interior edges, 12 interior quads and 8 sub-hexes. -/
def hypercube_split_degree (mod_dim prod_dim : Nat) : Nat :=
  match mod_dim, prod_dim with
  | 1, 0 => 1
  | 1, 1 => 2
  | 2, 0 => 1
  | 2, 1 => 4
  | 2, 2 => 4
  | 3, 0 => 1
  | 3, 1 => 6
  | 3, 2 => 12
  | 3, 3 => 8
  | _, _ => 0

/-- C8: for every modified-entity dimension mod_dim in [1, 3], the hypercube
split-degree table gives exactly one vertex product:
hypercube_split_degree(mod_dim, 0) = 1. -/
theorem hypercube_split_degree_vert : ∀ mod_dim : Nat, 1 ≤ mod_dim →
    mod_dim ≤ 3 → hypercube_split_degree mod_dim 0 = 1 := by decide

/-- Witness for C8 at mod_dim = 2 (a refined quad has one midpoint vertex). -/
theorem hypercube_split_degree_vert_witness :
    hypercube_split_degree 2 0 = 1 :=
  hypercube_split_degree_vert 2 (by decide) (by decide)

/- Translated from src/unnamed/part_000 lines 42-115: the Write and Read array
   handles.  The existence flag is a separate boolean field (source comment
   lines 49-50: "separate boolean instead of data()==nullptr"); the default
   constructor (lines 84-94) initializes an empty buffer, size 0 and
   exists_(false).  The sized constructor Write(LO size) has no body under
   src/ and is modelled from the spec ("a tri-state {absent, present-empty,
   present-sized} handle"): it allocates size elements and sets the flag. -/
structure WriteArr where
  data : List Int
  size : Nat
  exists_flag : Bool

def writeDefault : WriteArr := ⟨[], 0, false⟩

def writeOfSize (size : Nat) : WriteArr := ⟨List.replicate size 0, size, true⟩

def WriteArr.existsQ (wr : WriteArr) : Bool := wr.exists_flag

/- Translated from src/unnamed/part_000 lines 96-115: Read wraps a Write; the
   default Read default-constructs its Write. -/
structure ReadArr where
  write_ : WriteArr

def readOfWrite (wr : WriteArr) : ReadArr := ⟨wr⟩

def readDefault : ReadArr := ⟨writeDefault⟩

def ReadArr.existsQ (r : ReadArr) : Bool := r.write_.exists_flag

def ReadArr.sizeQ (r : ReadArr) : Nat := r.write_.size

/-- C9: the Array handle distinguishes does-not-exist from present-empty: a
default-constructed Write (and a Read built from it) has exists() = false and
size() = 0; a Write constructed with an explicit size n (including n = 0) has
exists() = true; and the existence flag is an explicit boolean field, not a
null-data comparison: the absent handle and the present size-0 handle hold the
same (empty) data yet differ in the flag. -/
theorem array_existence_tri_state :
    writeDefault.existsQ = false ∧ writeDefault.size = 0 ∧
    (readOfWrite writeDefault).existsQ = false ∧
    (readOfWrite writeDefault).sizeQ = 0 ∧
    readDefault.existsQ = false ∧ readDefault.sizeQ = 0 ∧
    (∀ n : Nat, (writeOfSize n).existsQ = true ∧ (writeOfSize n).size = n) ∧
    (writeOfSize 0).data = writeDefault.data ∧
    (writeOfSize 0).existsQ ≠ writeDefault.existsQ :=
  ⟨rfl, rfl, rfl, rfl, rfl, rfl, fun _ => ⟨rfl, rfl⟩, rfl, by decide⟩

/- Parting states, cell families and the phase events of amr::refine,
   translated from src/unnamed/part_001 (OMEGA_H_GHOSTED, OMEGA_H_ELEM_BASED,
   OMEGA_H_HYPERCUBE). -/
inductive Parting where
  | elem_based
  | ghosted
  deriving DecidableEq

inductive Family where
  | hypercube
  | simplex
  deriving DecidableEq

inductive PhaseEv where
  | markRefined
  | setParting (p : Parting)
  | ghostedOrdering
  | elemRewrite
  | commit
  deriving DecidableEq

structure MeshSt where
  family : Family
  parting : Parting
  deriving DecidableEq

/- Execution state: the live mesh handle plus the log of executed phases (the
   log is observation only, not part of the mesh). -/
structure ExecSt where
  mesh : MeshSt
  log : List PhaseEv
  deriving DecidableEq

/- Modelled from the spec: amr::mark_refined (body not under src/) propagates
   cell marks to all dimensions; recorded as the mark-propagation event. -/
def mark_refined (marks : List Bool) (s : ExecSt) : ExecSt :=
  { s with log := s.log ++ [PhaseEv.markRefined] }

/- Modelled from the spec: Mesh::set_parting (body not under src/) migrates the
   mesh to the requested parting. -/
def set_parting (p : Parting) (s : ExecSt) : ExecSt :=
  { mesh := { s.mesh with parting := p }, log := s.log ++ [PhaseEv.setParting p] }

/- Translated from src/unnamed/part_001 lines 17-40 (amr::refine_ghosted): the
   ghosted representative-ordering phase; its callees are not under src/, so
   the phase body is recorded as one event. -/
def refine_ghosted (s : ExecSt) : ExecSt :=
  { s with log := s.log ++ [PhaseEv.ghostedOrdering] }

/- Mesh::copy_meta copies the mesh metadata (communicator, family, parting). -/
def copy_meta (m : MeshSt) : MeshSt := m

/- Translated from src/unnamed/part_001 lines 42-113 (amr::refine_elem_based):
   new_mesh is built from copy_meta, the element-based topology rewrite and
   field transfers run on it, and the final single assignment *mesh = new_mesh
   commits it as the live mesh. -/
def refine_elem_based (s : ExecSt) : ExecSt :=
  let new_mesh := copy_meta s.mesh
  let s1 : ExecSt := { s with log := s.log ++ [PhaseEv.elemRewrite] }
  { mesh := new_mesh, log := s1.log ++ [PhaseEv.commit] }

/- Translated from src/unnamed/part_001 lines 115-122 (amr::refine): the
   hypercube-family check runs before any phase; on failure the operation
   aborts carrying the untouched state, otherwise the five phases run in the
   written order. -/
def refine (marks : List Bool) (s : ExecSt) : Except ExecSt ExecSt :=
  if s.mesh.family = Family.hypercube then
    Except.ok (refine_elem_based (set_parting Parting.elem_based
      (refine_ghosted (set_parting Parting.ghosted (mark_refined marks s)))))
  else
    Except.error s

/-- C2: on a hypercube-family mesh, amr::refine executes mark propagation, the
switch to ghosted parting, the ghosted representative-ordering phase, the
switch back to element-based parting, the element-based topology rewrite and
transfers, and the final commit, in that strict order, and the resulting mesh
(which replaced the old handle at the commit) has element-based parting. -/
theorem refine_phase_order (s : ExecSt) (marks : List Bool)
    (h : s.mesh.family = Family.hypercube) :
    refine marks s = Except.ok
      { mesh := { family := s.mesh.family, parting := Parting.elem_based },
        log := s.log ++ [PhaseEv.markRefined, PhaseEv.setParting Parting.ghosted,
          PhaseEv.ghostedOrdering, PhaseEv.setParting Parting.elem_based,
          PhaseEv.elemRewrite, PhaseEv.commit] } := by
  simp [refine, h, refine_elem_based, set_parting, refine_ghosted, mark_refined,
    copy_meta]

/-- Witness for C2 on a one-element hypercube mesh state with empty log. -/
theorem refine_phase_order_witness :
    refine [true] ⟨⟨Family.hypercube, Parting.elem_based⟩, []⟩ = Except.ok
      ⟨⟨Family.hypercube, Parting.elem_based⟩,
       [PhaseEv.markRefined, PhaseEv.setParting Parting.ghosted,
        PhaseEv.ghostedOrdering, PhaseEv.setParting Parting.elem_based,
        PhaseEv.elemRewrite, PhaseEv.commit]⟩ :=
  refine_phase_order ⟨⟨Family.hypercube, Parting.elem_based⟩, []⟩ [true] rfl

/-- C3: on a mesh whose cell family is not hypercube, amr::refine fails its
eager precondition check before any phase runs: the result is the abort
carrying the input state completely unchanged (no mark, parting switch, or
topology mutation has occurred). -/
theorem refine_non_hypercube_aborts (s : ExecSt) (marks : List Bool)
    (h : s.mesh.family ≠ Family.hypercube) :
    refine marks s = Except.error s := by
  simp [refine, h]

/-- Witness for C3 on a simplex-family mesh state. -/
theorem refine_non_hypercube_aborts_witness :
    refine [true] ⟨⟨Family.simplex, Parting.elem_based⟩, []⟩ =
      Except.error ⟨⟨Family.simplex, Parting.elem_based⟩, []⟩ :=
  refine_non_hypercube_aborts ⟨⟨Family.simplex, Parting.elem_based⟩, []⟩ [true]
    (by decide)

end OmegaH
